import Mathlib

/-!
Verification of the bare-metal UART serial I/O layer.

The development shallowly embeds the two driver variants of the repository:

* the PL011-style driver of `src/hello_world_m33/hello_world_m33.c`
  (`uart_init`, `uart_putchar`, `uart_puts`, `uart_put_number`), and
* the NS16550-style driver of `src/multi-machine_demo/uart_test.c` and
  `src/multi-machine_demo/machine1.c` (`uart_putc`, `uart_puts` taking a
  base address).

Hardware-driven status reads (the PL011 flag register, the NS16550 line
status register) are modelled by an oracle: a stream giving the value
observed by the i-th status read.  The busy-wait loops of the source may
diverge, so each polling operation takes a fuel bound on the number of
polls and returns `Option`; divergence is `none` for every fuel.
Every register access of the source is recorded in an event trace.
-/

namespace Uart

/-! ### PL011 register model (src/hello_world_m33/hello_world_m33.c) -/

/-- Flag-register bit 5: transmit FIFO full (`UART_FR_TXFF`, line 21). -/
def UART_FR_TXFF : Nat := 1 <<< 5

/-- Flag-register bit 3: UART busy (`UART_FR_BUSY`, line 22). -/
def UART_FR_BUSY : Nat := 1 <<< 3

/-- Control-register bit 0: UART enable (`UART_CR_UARTEN`, line 25). -/
def UART_CR_UARTEN : Nat := 1 <<< 0

/-- Control-register bit 8: transmit enable (`UART_CR_TXE`, line 26). -/
def UART_CR_TXE : Nat := 1 <<< 8

/-- Control-register bit 9: receive enable (`UART_CR_RXE`, line 27). -/
def UART_CR_RXE : Nat := 1 <<< 9

/-- Line-control bits 5-6: 8-bit word length (`UART_LCRH_WLEN8`, line 30). -/
def UART_LCRH_WLEN8 : Nat := 3 <<< 5

/-- Line-control bit 4: FIFO enable (`UART_LCRH_FEN`, line 31). -/
def UART_LCRH_FEN : Nat := 1 <<< 4

/-- Register offsets from the UART base address (lines 12-18 of the source). -/
def DR_off : Nat := 0x00

def FR_off : Nat := 0x18

def IBRD_off : Nat := 0x24

def FBRD_off : Nat := 0x28

def LCRH_off : Nat := 0x2C

def CR_off : Nat := 0x30

def IMSC_off : Nat := 0x38

/-- The software-writable registers of one PL011 instance.  The flag
register is hardware-driven and read-only from software, so its reads are
modelled by an oracle rather than a field here.  All registers are
`uint32_t`. -/
structure PL011Regs where
  dr : Nat
  ibrd : Nat
  fbrd : Nat
  lcrh : Nat
  cr : Nat
  imsc : Nat
deriving DecidableEq, Repr

/-- A store through one of the volatile register macros: the 32-bit value
lands in the register selected by the offset; an offset outside the
register set touches nothing. -/
def regWrite (r : PL011Regs) (off v : Nat) : PL011Regs :=
  if off = DR_off then { r with dr := v % 2 ^ 32 }
  else if off = IBRD_off then { r with ibrd := v % 2 ^ 32 }
  else if off = FBRD_off then { r with fbrd := v % 2 ^ 32 }
  else if off = LCRH_off then { r with lcrh := v % 2 ^ 32 }
  else if off = CR_off then { r with cr := v % 2 ^ 32 }
  else if off = IMSC_off then { r with imsc := v % 2 ^ 32 }
  else r

/-- One bus transaction of the PL011 driver: a flag-register read (with the
value the hardware returned), a register write, or the busy-wait `delay`
call. -/
inductive Event where
  | readFR (v : Nat)
  | writeReg (off v : Nat)
  | delayEv (count : Nat)
deriving DecidableEq, Repr

/-- State threaded through the driver: the instance's registers, the index
of the next flag-register poll (consuming the oracle stream), and the trace
of bus transactions so far. -/
structure TxState where
  regs : PL011Regs
  poll : Nat
  trace : List Event
deriving Repr

/-- A register write together with its trace event, the embedding of one
volatile store such as `UART_CR = 0`. -/
def volWrite (off v : Nat) (s : PL011Regs × List Event) : PL011Regs × List Event :=
  (regWrite s.1 off v, s.2 ++ [Event.writeReg off v])

/-- The `delay(count)` busy-wait: touches no register, recorded in the
trace. -/
def volDelay (count : Nat) (s : PL011Regs × List Event) : PL011Regs × List Event :=
  (s.1, s.2 ++ [Event.delayEv count])

/-- `uart_init` (lines 41-62): disable the UART, program the baud divisors,
the line control, mask interrupts, re-enable, then delay.  Returns the
register file after the run together with the trace of the run. -/
def uart_init_run (r : PL011Regs) : PL011Regs × List Event :=
  volDelay 1000
    (volWrite CR_off (UART_CR_UARTEN ||| UART_CR_TXE ||| UART_CR_RXE)
      (volWrite IMSC_off 0
        (volWrite LCRH_off (UART_LCRH_WLEN8 ||| UART_LCRH_FEN)
          (volWrite FBRD_off 1
            (volWrite IBRD_off 13
              (volWrite CR_off 0 (r, [])))))))

/-- The register file after `uart_init`. -/
def uart_init (r : PL011Regs) : PL011Regs :=
  (uart_init_run r).1

/-- Index of the first flag-register poll at or after `start`, within
`fuel` polls, whose value has the transmit-FIFO-full bit clear; `none` when
every polled value within the fuel has the bit set.  This is the search the
`while (UART_FR & UART_FR_TXFF)` loop of `uart_putchar` performs. -/
def findClear (fr : Nat → Nat) (start : Nat) : Nat → Option Nat
  | 0 => none
  | fuel + 1 =>
    if fr start &&& UART_FR_TXFF = 0 then some start
    else findClear fr (start + 1) fuel

/-- The flag-register reads the polling loop performs when it polls `n`
successive indices starting at `start`. -/
def pollTrace (fr : Nat → Nat) (start : Nat) : Nat → List Event
  | 0 => []
  | n + 1 => Event.readFR (fr start) :: pollTrace fr (start + 1) n

/-- `uart_putchar` (lines 65-73): busy-wait until the transmit FIFO is not
full, then store the character in the data register. -/
def uart_putchar (fr : Nat → Nat) (fuel : Nat) (c : Nat) (st : TxState) : Option TxState :=
  match findClear fr st.poll fuel with
  | none => none
  | some i =>
    some { regs := regWrite st.regs DR_off c
           poll := i + 1
           trace := st.trace ++ pollTrace fr st.poll (i + 1 - st.poll)
                    ++ [Event.writeReg DR_off c] }

/-- `uart_puts` (lines 76-84): walk the string until its terminating zero
byte; a line feed gets a carriage return transmitted first, every byte is
then transmitted as is. -/
def uart_puts (fr : Nat → Nat) (fuel : Nat) : List Nat → TxState → Option TxState
  | [], st => some st
  | c :: rest, st =>
    if c = 0 then some st
    else if c = 10 then
      match uart_putchar fr fuel 13 st with
      | none => none
      | some st1 =>
        match uart_putchar fr fuel c st1 with
        | none => none
        | some st2 => uart_puts fr fuel rest st2
    else
      match uart_putchar fr fuel c st with
      | none => none
      | some st1 => uart_puts fr fuel rest st1

/-! ### uart_put_number (lines 87-103)

The 12-byte scratch buffer is modelled as a function from `Int` (so that a
pointer moving below the buffer start would be visible as a negative
index); its initial contents are an arbitrary `g`, the uninitialized stack
garbage.  Buffer cells are `char`, so stores truncate to 8 bits. -/

/-- One buffer store `*p = v`. -/
def bufApply (buf : Int → Nat) (w : Int × Nat) : Int → Nat :=
  fun i => if i = w.1 then w.2 % 256 else buf i

/-- The buffer after a list of stores, applied in order. -/
def bufAfter (ws : List (Int × Nat)) (buf : Int → Nat) : Int → Nat :=
  ws.foldl bufApply buf

/-- The stores of the digit loop `while (num > 0) { *(--ptr) = '0' + num %
10; num /= 10; }`, starting with pointer value `ptr`; each iteration first
decrements the pointer, then stores the next least-significant digit.  The
recursion is bounded by `fuel`; `uart_put_number` passes `num` itself,
which exceeds the iteration count. -/
def digitLoop : Nat → Nat → Int → List (Int × Nat)
  | 0, _, _ => []
  | fuel + 1, num, ptr =>
    if num = 0 then []
    else (ptr - 1, 48 + num % 10) :: digitLoop fuel (num / 10) (ptr - 1)

/-- All buffer stores of `uart_put_number num`: the terminator at index 11
(`ptr` starts one past the last cell of `char buffer[12]` minus one), then
either the single `'0'` store for `num = 0` or the digit loop. -/
def uart_put_number_writes (num : Nat) : List (Int × Nat) :=
  ((11 : Int), 0) :: (if num = 0 then [((10 : Int), 48)] else digitLoop num num 11)

/-- The pointer value passed to `uart_puts`: 11 minus one per pre-decrement
of the loop (each loop iteration performs exactly one store). -/
def uart_put_number_finalPtr (num : Nat) : Int :=
  11 - ((uart_put_number_writes num).length - 1 : Nat)

/-- Reading a C string from the buffer: collect bytes from `p` upward until
a zero byte.  `fuel` bounds the walk; 12 covers the whole buffer. -/
def readCStr (buf : Int → Nat) (p : Int) : Nat → List Nat
  | 0 => []
  | fuel + 1 => if buf p = 0 then [] else buf p :: readCStr buf (p + 1) fuel

/-- The text `uart_put_number num` renders into a buffer with initial
contents `g`: the bytes `uart_puts` will read from the final pointer. -/
def uart_put_number_rendered (g : Int → Nat) (num : Nat) : List Nat :=
  readCStr (bufAfter (uart_put_number_writes num) g) (uart_put_number_finalPtr num) 12

/-- `uart_put_number` (lines 87-103): render the decimal digits into the
scratch buffer back to front, then transmit the rendered text with
`uart_puts`. -/
def uart_put_number (fr : Nat → Nat) (fuel : Nat) (g : Int → Nat) (num : Nat)
    (st : TxState) : Option TxState :=
  uart_puts fr fuel (uart_put_number_rendered g num) st

/-! ### Observations on PL011 traces -/

/-- The bytes a trace puts on the wire: the values of its data-register
writes, in order. -/
def txBytes (tr : List Event) : List Nat :=
  tr.filterMap fun e =>
    match e with
    | Event.writeReg off v => if off = DR_off then some v else none
    | _ => none

/-- Whether an event is one `transmit_byte` may produce: a flag-register
read or a data-register write. -/
def isTransmitEvent : Event → Bool
  | Event.readFR _ => true
  | Event.writeReg off _ => off = DR_off
  | Event.delayEv _ => false

/-- Whether an event is a data-register write. -/
def isDRWrite : Event → Bool
  | Event.writeReg off _ => off = DR_off
  | _ => false

/-- Whether an event is one `uart_init` is allowed to produce: a write to
one of the five configuration registers, or the settling delay. -/
def initEventOK : Event → Bool
  | Event.writeReg off _ =>
      off = CR_off || off = IBRD_off || off = FBRD_off || off = LCRH_off || off = IMSC_off
  | Event.delayEv _ => true
  | Event.readFR _ => false

/-- Scan of the polling discipline: `seen` records whether a
flag-register read with the FIFO-full bit clear has occurred since the
last data-register write (or the start); every data-register write must
find `seen = true`. -/
def wellPolledGo : List Event → Bool → Bool
  | [], _ => true
  | Event.readFR v :: rest, seen => wellPolledGo rest (seen || (v &&& UART_FR_TXFF = 0))
  | Event.writeReg off _ :: rest, seen =>
    if off = DR_off then seen && wellPolledGo rest false
    else wellPolledGo rest seen
  | Event.delayEv _ :: rest, seen => wellPolledGo rest seen

/-- A trace respects the polling discipline when every data-register write
is preceded by a clear FIFO-full read since the previous data-register
write. -/
def wellPolled (tr : List Event) : Bool :=
  wellPolledGo tr false

/-- A sequence of `uart_putchar` calls, one per listed byte. -/
def putcharSeq (fr : Nat → Nat) (fuel : Nat) : List Nat → TxState → Option TxState
  | [], st => some st
  | c :: rest, st =>
    match uart_putchar fr fuel c st with
    | none => none
    | some st1 => putcharSeq fr fuel rest st1

/-- A fresh driver state over register file `r`: next poll index 0, empty
trace. -/
def initTx (r : PL011Regs) : TxState :=
  { regs := r, poll := 0, trace := [] }

/-! ### Spec-side definitions (for refinement comparison only) -/

/-- Modelled from the spec's words: the input with every `0x0A` replaced by
`0x0D 0x0A` and no other byte altered. -/
def spec_lf2crlf : List Nat → List Nat
  | [] => []
  | c :: rest => if c = 10 then 13 :: 10 :: spec_lf2crlf rest else c :: spec_lf2crlf rest

/-- Modelled from the spec's words: the standard base-10 ASCII digit string
of `n`, most-significant digit first, no leading zeros, `"0"` for zero. -/
def spec_decimalAscii (n : Nat) : List Nat :=
  if n = 0 then [48] else ((Nat.digits 10 n).map fun d => 48 + d).reverse

/-! ### NS16550 model (src/multi-machine_demo/uart_test.c, machine1.c) -/

def UART0_BASE : Nat := 0x10013000

def UART1_BASE : Nat := 0x10023000

def UART_THR : Nat := 0x00

def UART_LSR : Nat := 0x14

def UART_LSR_THRE : Nat := 0x20

/-- One bus transaction of the NS16550 driver: a line-status-register read
at some base (with the value returned) or a byte store to an absolute
address. -/
inductive NSEvent where
  | readLSR (base v : Nat)
  | writeByte (addr v : Nat)
deriving DecidableEq, Repr

/-- NS16550-side state: the byte-addressed register space (both instances
live in it, distinguished purely by address), the next poll index, and the
trace. -/
structure NSState where
  mem : Nat → Nat
  poll : Nat
  trace : List NSEvent

/-- A `uint8_t` store through a volatile pointer. -/
def memWrite (m : Nat → Nat) (a v : Nat) : Nat → Nat :=
  fun x => if x = a then v % 256 else m x

/-- Index of the first line-status poll at or after `start`, within `fuel`
polls, whose value has the transmit-holding-register-empty bit set; the
`while (!(*lsr & UART_LSR_THRE))` loop spins while the bit is clear. -/
def findReady (lsr : Nat → Nat) (start : Nat) : Nat → Option Nat
  | 0 => none
  | fuel + 1 =>
    if lsr start &&& UART_LSR_THRE ≠ 0 then some start
    else findReady lsr (start + 1) fuel

/-- The line-status reads of `n` successive polls starting at `start`,
against base `base`. -/
def nsPollTrace (lsr : Nat → Nat) (base start : Nat) : Nat → List NSEvent
  | 0 => []
  | n + 1 => NSEvent.readLSR base (lsr start) :: nsPollTrace lsr base (start + 1) n

/-- `uart_putc` (uart_test.c lines 32-48, machine1.c lines 10-15):
busy-wait until the transmit holding register is empty, then store the
byte at `base + UART_THR`. -/
def ns_uart_putc (lsr : Nat → Nat) (fuel : Nat) (base c : Nat) (st : NSState) :
    Option NSState :=
  match findReady lsr st.poll fuel with
  | none => none
  | some i =>
    some { mem := memWrite st.mem (base + UART_THR) c
           poll := i + 1
           trace := st.trace ++ nsPollTrace lsr base st.poll (i + 1 - st.poll)
                    ++ [NSEvent.writeByte (base + UART_THR) (c % 256)] }

/-- `uart_puts` (uart_test.c lines 56-69, machine1.c lines 17-22): same
walk as the PL011 variant, against the instance selected by `base`. -/
def ns_uart_puts (lsr : Nat → Nat) (fuel : Nat) (base : Nat) :
    List Nat → NSState → Option NSState
  | [], st => some st
  | c :: rest, st =>
    if c = 0 then some st
    else if c = 10 then
      match ns_uart_putc lsr fuel base 13 st with
      | none => none
      | some st1 =>
        match ns_uart_putc lsr fuel base c st1 with
        | none => none
        | some st2 => ns_uart_puts lsr fuel base rest st2
    else
      match ns_uart_putc lsr fuel base c st with
      | none => none
      | some st1 => ns_uart_puts lsr fuel base rest st1

/-- The bytes a trace puts on the wire of the instance at `base`: values of
its transmit-holding-register stores, in order. -/
def nsTxBytes (base : Nat) (tr : List NSEvent) : List Nat :=
  tr.filterMap fun e =>
    match e with
    | NSEvent.writeByte addr v => if addr = base + UART_THR then some v else none
    | _ => none

/-- Scan of the NS16550 polling discipline against one base: `seen`
records whether a line-status read at that base with the
transmit-holding-register-empty bit set (the not-ready condition read as
false) has occurred since the last transmit-holding-register write of
that base (or the start); every such write must find `seen = true`. -/
def nsWellPolledGo (base : Nat) : List NSEvent → Bool → Bool
  | [], _ => true
  | NSEvent.readLSR b v :: rest, seen =>
      nsWellPolledGo base rest
        (seen || (decide (b = base) && decide (v &&& UART_LSR_THRE ≠ 0)))
  | NSEvent.writeByte addr _ :: rest, seen =>
      if addr = base + UART_THR then seen && nsWellPolledGo base rest false
      else nsWellPolledGo base rest seen

/-- An NS16550 trace respects the polling discipline for `base` when every
transmit-holding-register write of that base is preceded by a ready read
since the previous one. -/
def nsWellPolled (base : Nat) (tr : List NSEvent) : Bool :=
  nsWellPolledGo base tr false

/-- A sequence of `uart_putc` calls against one base, one per listed
byte. -/
def ns_putcSeq (lsr : Nat → Nat) (fuel base : Nat) : List Nat → NSState → Option NSState
  | [], st => some st
  | c :: rest, st =>
    match ns_uart_putc lsr fuel base c st with
    | none => none
    | some st1 => ns_putcSeq lsr fuel base rest st1

/-- The configuration registers of two register files agree (everything an
initialized instance relies on; only the data register may differ). -/
def configEq (r r' : PL011Regs) : Prop :=
  r.ibrd = r'.ibrd ∧ r.fbrd = r'.fbrd ∧ r.lcrh = r'.lcrh ∧ r.cr = r'.cr ∧ r.imsc = r'.imsc

/-- A flag-register oracle whose FIFO is never full. -/
def alwaysReadyFR : Nat → Nat := fun _ => 0

/-- A line-status oracle whose transmit holding register is always empty. -/
def alwaysReadyLSR : Nat → Nat := fun _ => UART_LSR_THRE

/-- An all-zero register file, a concrete reset state for witnesses. -/
def r0 : PL011Regs :=
  { dr := 0, ibrd := 0, fbrd := 0, lcrh := 0, cr := 0, imsc := 0 }

/-- A concrete NS16550-side machine state for witnesses. -/
def ns0 : NSState :=
  { mem := fun _ => 0, poll := 0, trace := [] }

/-! ## Lemmas about the PL011 polling loop -/

theorem findClear_some_spec (fr : Nat → Nat) :
    ∀ fuel start i, findClear fr start fuel = some i →
      start ≤ i ∧ fr i &&& UART_FR_TXFF = 0 ∧
        ∀ j, start ≤ j → j < i → fr j &&& UART_FR_TXFF ≠ 0 := by
  intro fuel
  induction fuel with
  | zero => intro start i h; simp [findClear] at h
  | succ fuel ih =>
    intro start i h
    rw [findClear] at h
    by_cases hc : fr start &&& UART_FR_TXFF = 0
    · rw [if_pos hc] at h
      cases h
      exact ⟨Nat.le_refl _, hc, fun j hj hji => absurd (Nat.lt_of_le_of_lt hj hji) (Nat.lt_irrefl _)⟩
    · rw [if_neg hc] at h
      obtain ⟨h1, h2, h3⟩ := ih (start + 1) i h
      refine ⟨Nat.le_trans (Nat.le_succ _) h1, h2, fun j hj hji => ?_⟩
      rcases Nat.eq_or_lt_of_le hj with hj' | hj'
      · exact hj' ▸ hc
      · exact h3 j hj' hji

theorem findClear_none_of_never (fr : Nat → Nat) (start0 : Nat)
    (h : ∀ i, start0 ≤ i → fr i &&& UART_FR_TXFF ≠ 0) :
    ∀ fuel start, start0 ≤ start → findClear fr start fuel = none := by
  intro fuel
  induction fuel with
  | zero => intro start _; rfl
  | succ fuel ih =>
    intro start hs
    rw [findClear, if_neg (h start hs)]
    exact ih (start + 1) (Nat.le_trans hs (Nat.le_succ _))

theorem findClear_isSome_of_clear (fr : Nat → Nat) :
    ∀ d start, fr (start + d) &&& UART_FR_TXFF = 0 →
      (findClear fr start (d + 1)).isSome = true := by
  intro d
  induction d with
  | zero =>
    intro start h
    simp only [Nat.add_zero] at h
    simp [findClear, h]
  | succ d ih =>
    intro start h
    rw [findClear]
    by_cases hc : fr start &&& UART_FR_TXFF = 0
    · simp [hc]
    · rw [if_neg hc]
      have heq : start + 1 + d = start + (d + 1) := by omega
      exact ih (start + 1) (heq ▸ h)

theorem txBytes_append (a b : List Event) : txBytes (a ++ b) = txBytes a ++ txBytes b :=
  List.filterMap_append ..

theorem txBytes_pollTrace (fr : Nat → Nat) :
    ∀ n start, txBytes (pollTrace fr start n) = [] := by
  intro n
  induction n with
  | zero => intro start; rfl
  | succ n ih => intro start; simp [pollTrace, txBytes, List.filterMap] at ih ⊢; exact ih (start + 1)

theorem pollTrace_transmitEvents (fr : Nat → Nat) :
    ∀ n start, ∀ e ∈ pollTrace fr start n, isTransmitEvent e = true := by
  intro n
  induction n with
  | zero => intro start e he; simp [pollTrace] at he
  | succ n ih =>
    intro start e he
    rw [pollTrace] at he
    rcases List.mem_cons.mp he with h | h
    · subst h; rfl
    · exact ih (start + 1) e h

theorem countP_pollTrace (fr : Nat → Nat) :
    ∀ n start, (pollTrace fr start n).countP isDRWrite = 0 := by
  intro n
  induction n with
  | zero => intro start; rfl
  | succ n ih =>
    intro start
    rw [pollTrace, List.countP_cons]
    simp [isDRWrite, ih (start + 1)]

theorem regWrite_DR_configEq (r : PL011Regs) (c : Nat) :
    configEq (regWrite r DR_off c) r := by
  simp [regWrite, DR_off, configEq]

theorem uart_putchar_some (fr : Nat → Nat) (fuel c : Nat) (st st' : TxState)
    (h : uart_putchar fr fuel c st = some st') :
    ∃ i, findClear fr st.poll fuel = some i ∧
      st' = { regs := regWrite st.regs DR_off c
              poll := i + 1
              trace := st.trace ++ pollTrace fr st.poll (i + 1 - st.poll)
                       ++ [Event.writeReg DR_off c] } := by
  rw [uart_putchar] at h
  cases hfc : findClear fr st.poll fuel with
  | none => rw [hfc] at h; cases h
  | some i =>
    rw [hfc] at h
    cases h
    exact ⟨i, rfl, rfl⟩

theorem wellPolledGo_pollTrace_true (fr : Nat → Nat) :
    ∀ n start l, wellPolledGo (pollTrace fr start n ++ l) true = wellPolledGo l true := by
  intro n
  induction n with
  | zero => intro start l; rfl
  | succ n ih =>
    intro start l
    rw [pollTrace, List.cons_append, wellPolledGo]
    rw [Bool.true_or]
    exact ih (start + 1) l

theorem wellPolledGo_pollTrace_clear (fr : Nat → Nat) :
    ∀ n start l seen, (∃ j, j < n ∧ fr (start + j) &&& UART_FR_TXFF = 0) →
      wellPolledGo (pollTrace fr start n ++ l) seen = wellPolledGo l true := by
  intro n
  induction n with
  | zero =>
    intro start l seen h
    obtain ⟨j, hj, _⟩ := h
    exact absurd hj (Nat.not_lt_zero j)
  | succ n ih =>
    intro start l seen h
    rw [pollTrace, List.cons_append, wellPolledGo]
    by_cases hc : fr start &&& UART_FR_TXFF = 0
    · have hb : (seen || decide (fr start &&& UART_FR_TXFF = 0)) = true := by simp [hc]
      rw [hb]
      exact wellPolledGo_pollTrace_true fr n (start + 1) l
    · obtain ⟨j, hj, hclear⟩ := h
      have hj0 : j ≠ 0 := by
        intro h0
        subst h0
        simp only [Nat.add_zero] at hclear
        exact hc hclear
      refine ih (start + 1) l _ ⟨j - 1, by omega, ?_⟩
      have : start + 1 + (j - 1) = start + j := by omega
      rw [this]
      exact hclear

theorem uart_putchar_delta (fr : Nat → Nat) (fuel c : Nat) (st st' : TxState)
    (h : uart_putchar fr fuel c st = some st') :
    ∃ d, st'.trace = st.trace ++ d ∧
      txBytes d = [c] ∧
      (∀ e ∈ d, isTransmitEvent e = true) ∧
      d.countP isDRWrite = 1 ∧
      (∀ l seen, wellPolledGo (d ++ l) seen = wellPolledGo l false) ∧
      configEq st'.regs st.regs ∧
      st.poll ≤ st'.poll := by
  obtain ⟨i, hfc, hst⟩ := uart_putchar_some fr fuel c st st' h
  obtain ⟨hle, hclear, _⟩ := findClear_some_spec fr fuel st.poll i hfc
  refine ⟨pollTrace fr st.poll (i + 1 - st.poll) ++ [Event.writeReg DR_off c],
    ?_, ?_, ?_, ?_, ?_, ?_, ?_⟩
  · rw [hst]; simp
  · rw [txBytes_append, txBytes_pollTrace]
    simp [txBytes, DR_off]
  · intro e he
    rcases List.mem_append.mp he with h' | h'
    · exact pollTrace_transmitEvents fr _ _ e h'
    · rcases List.mem_singleton.mp h' with rfl
      simp [isTransmitEvent]
  · rw [List.countP_append, countP_pollTrace]
    simp [isDRWrite]
  · intro l seen
    rw [List.append_assoc, wellPolledGo_pollTrace_clear fr _ _ _ _
      ⟨i - st.poll, by omega, by rw [Nat.add_sub_cancel' hle]; exact hclear⟩]
    simp [wellPolledGo, DR_off]
  · rw [hst]
    exact regWrite_DR_configEq st.regs c
  · rw [hst]
    simpa using Nat.le_trans hle (Nat.le_succ i)

theorem configEq_refl (r : PL011Regs) : configEq r r :=
  ⟨rfl, rfl, rfl, rfl, rfl⟩

theorem configEq_trans {a b c : PL011Regs} (h1 : configEq a b) (h2 : configEq b c) :
    configEq a c := by
  obtain ⟨x1, x2, x3, x4, x5⟩ := h1
  obtain ⟨y1, y2, y3, y4, y5⟩ := h2
  exact ⟨x1.trans y1, x2.trans y2, x3.trans y3, x4.trans y4, x5.trans y5⟩

theorem uart_puts_delta (fr : Nat → Nat) (fuel : Nat) :
    ∀ s st st', uart_puts fr fuel s st = some st' → (∀ c ∈ s, c ≠ 0) →
      ∃ d, st'.trace = st.trace ++ d ∧
        txBytes d = spec_lf2crlf s ∧
        (∀ e ∈ d, isTransmitEvent e = true) ∧
        configEq st'.regs st.regs := by
  intro s
  induction s with
  | nil =>
    intro st st' h _
    cases h
    exact ⟨[], by simp, rfl, by simp, configEq_refl _⟩
  | cons c rest ih =>
    intro st st' h hnz
    have hc0 : c ≠ 0 := hnz c (List.mem_cons_self ..)
    rw [uart_puts, if_neg hc0] at h
    by_cases hc10 : c = 10
    · subst hc10
      rw [if_pos rfl] at h
      cases h1 : uart_putchar fr fuel 13 st with
      | none => simp [h1] at h
      | some st1 =>
        simp only [h1] at h
        cases h2 : uart_putchar fr fuel 10 st1 with
        | none => simp [h2] at h
        | some st2 =>
          simp only [h2] at h
          obtain ⟨d1, hd1, htx1, hev1, _, _, hcfg1, _⟩ := uart_putchar_delta fr fuel 13 st st1 h1
          obtain ⟨d2, hd2, htx2, hev2, _, _, hcfg2, _⟩ := uart_putchar_delta fr fuel 10 st1 st2 h2
          obtain ⟨d3, hd3, htx3, hev3, hcfg3⟩ :=
            ih st2 st' h (fun x hx => hnz x (List.mem_cons_of_mem _ hx))
          refine ⟨d1 ++ d2 ++ d3, ?_, ?_, ?_, ?_⟩
          · rw [hd3, hd2, hd1]; simp
          · rw [txBytes_append, txBytes_append, htx1, htx2, htx3, spec_lf2crlf, if_pos rfl]
            rfl
          · intro e he
            rcases List.mem_append.mp he with h' | h'
            · rcases List.mem_append.mp h' with h'' | h''
              · exact hev1 e h''
              · exact hev2 e h''
            · exact hev3 e h'
          · exact configEq_trans hcfg3 (configEq_trans hcfg2 hcfg1)
    · rw [if_neg hc10] at h
      cases h1 : uart_putchar fr fuel c st with
      | none => simp [h1] at h
      | some st1 =>
        simp only [h1] at h
        obtain ⟨d1, hd1, htx1, hev1, _, _, hcfg1, _⟩ := uart_putchar_delta fr fuel c st st1 h1
        obtain ⟨d3, hd3, htx3, hev3, hcfg3⟩ :=
          ih st1 st' h (fun x hx => hnz x (List.mem_cons_of_mem _ hx))
        refine ⟨d1 ++ d3, ?_, ?_, ?_, ?_⟩
        · rw [hd3, hd1]; simp
        · rw [txBytes_append, htx1, htx3, spec_lf2crlf, if_neg hc10]
          rfl
        · intro e he
          rcases List.mem_append.mp he with h' | h'
          · exact hev1 e h'
          · exact hev3 e h'
        · exact configEq_trans hcfg3 hcfg1

theorem putcharSeq_delta (fr : Nat → Nat) (fuel : Nat) :
    ∀ bytes st st', putcharSeq fr fuel bytes st = some st' →
      ∃ d, st'.trace = st.trace ++ d ∧
        txBytes d = bytes ∧
        wellPolledGo d false = true ∧
        configEq st'.regs st.regs := by
  intro bytes
  induction bytes with
  | nil =>
    intro st st' h
    cases h
    exact ⟨[], by simp, rfl, rfl, configEq_refl _⟩
  | cons c rest ih =>
    intro st st' h
    rw [putcharSeq] at h
    cases h1 : uart_putchar fr fuel c st with
    | none => simp [h1] at h
    | some st1 =>
      simp only [h1] at h
      obtain ⟨d1, hd1, htx1, _, _, hreset, hcfg1, _⟩ := uart_putchar_delta fr fuel c st st1 h1
      obtain ⟨d3, hd3, htx3, hwp3, hcfg3⟩ := ih st1 st' h
      refine ⟨d1 ++ d3, ?_, ?_, ?_, configEq_trans hcfg3 hcfg1⟩
      · rw [hd3, hd1]; simp
      · rw [txBytes_append, htx1, htx3]; rfl
      · rw [← hwp3]
        have := hreset d3 false
        simpa using this

/-! ## Lemmas about the NS16550 driver -/

theorem nsTxBytes_append (base : Nat) (a b : List NSEvent) :
    nsTxBytes base (a ++ b) = nsTxBytes base a ++ nsTxBytes base b :=
  List.filterMap_append ..

theorem nsTxBytes_pollTrace (lsr : Nat → Nat) (base base' : Nat) :
    ∀ n start, nsTxBytes base' (nsPollTrace lsr base start n) = [] := by
  intro n
  induction n with
  | zero => intro start; rfl
  | succ n ih =>
    intro start
    simp [nsPollTrace, nsTxBytes, List.filterMap] at ih ⊢
    exact ih (start + 1)

theorem ns_uart_putc_some (lsr : Nat → Nat) (fuel base c : Nat) (st st' : NSState)
    (h : ns_uart_putc lsr fuel base c st = some st') :
    ∃ i, findReady lsr st.poll fuel = some i ∧
      st' = { mem := memWrite st.mem (base + UART_THR) c
              poll := i + 1
              trace := st.trace ++ nsPollTrace lsr base st.poll (i + 1 - st.poll)
                       ++ [NSEvent.writeByte (base + UART_THR) (c % 256)] } := by
  rw [ns_uart_putc] at h
  cases hfc : findReady lsr st.poll fuel with
  | none => rw [hfc] at h; cases h
  | some i =>
    rw [hfc] at h
    cases h
    exact ⟨i, rfl, rfl⟩

theorem ns_uart_putc_delta (lsr : Nat → Nat) (fuel base c : Nat) (st st' : NSState)
    (h : ns_uart_putc lsr fuel base c st = some st') :
    nsTxBytes base st'.trace = nsTxBytes base st.trace ++ [c % 256] ∧
      st'.mem = memWrite st.mem (base + UART_THR) c := by
  obtain ⟨i, hfc, hst⟩ := ns_uart_putc_some lsr fuel base c st st' h
  subst hst
  refine ⟨?_, rfl⟩
  dsimp only
  rw [nsTxBytes_append, nsTxBytes_append, nsTxBytes_pollTrace]
  simp [nsTxBytes]

theorem ns_uart_puts_delta (lsr : Nat → Nat) (fuel base : Nat) :
    ∀ s st st', ns_uart_puts lsr fuel base s st = some st' →
      (∀ c ∈ s, c ≠ 0) → (∀ c ∈ s, c < 256) →
      nsTxBytes base st'.trace = nsTxBytes base st.trace ++ spec_lf2crlf s ∧
        ∀ a, a ≠ base + UART_THR → st'.mem a = st.mem a := by
  intro s
  induction s with
  | nil =>
    intro st st' h _ _
    cases h
    exact ⟨by simp [spec_lf2crlf], fun a _ => rfl⟩
  | cons c rest ih =>
    intro st st' h hnz hlt
    have hc0 : c ≠ 0 := hnz c (List.mem_cons_self ..)
    have hc256 : c < 256 := hlt c (List.mem_cons_self ..)
    have hrest_nz : ∀ x ∈ rest, x ≠ 0 := fun x hx => hnz x (List.mem_cons_of_mem _ hx)
    have hrest_lt : ∀ x ∈ rest, x < 256 := fun x hx => hlt x (List.mem_cons_of_mem _ hx)
    rw [ns_uart_puts, if_neg hc0] at h
    by_cases hc10 : c = 10
    · subst hc10
      rw [if_pos rfl] at h
      cases h1 : ns_uart_putc lsr fuel base 13 st with
      | none => simp [h1] at h
      | some st1 =>
        simp only [h1] at h
        cases h2 : ns_uart_putc lsr fuel base 10 st1 with
        | none => simp [h2] at h
        | some st2 =>
          simp only [h2] at h
          obtain ⟨htx1, hm1⟩ := ns_uart_putc_delta lsr fuel base 13 st st1 h1
          obtain ⟨htx2, hm2⟩ := ns_uart_putc_delta lsr fuel base 10 st1 st2 h2
          obtain ⟨htx3, hm3⟩ := ih st2 st' h hrest_nz hrest_lt
          constructor
          · rw [htx3, htx2, htx1, spec_lf2crlf, if_pos rfl]
            simp
          · intro a ha
            rw [hm3 a ha, hm2, hm1]
            simp [memWrite, ha]
    · rw [if_neg hc10] at h
      cases h1 : ns_uart_putc lsr fuel base c st with
      | none => simp [h1] at h
      | some st1 =>
        simp only [h1] at h
        obtain ⟨htx1, hm1⟩ := ns_uart_putc_delta lsr fuel base c st st1 h1
        obtain ⟨htx3, hm3⟩ := ih st1 st' h hrest_nz hrest_lt
        constructor
        · rw [htx3, htx1, spec_lf2crlf, if_neg hc10, Nat.mod_eq_of_lt hc256]
          simp
        · intro a ha
          rw [hm3 a ha, hm1]
          simp [memWrite, ha]

/-! ## Lemmas about the decimal rendering of uart_put_number -/

theorem digitLoop_zero (fuel : Nat) (ptr : Int) : digitLoop fuel 0 ptr = [] := by
  cases fuel with
  | zero => rfl
  | succ fuel => simp [digitLoop]

theorem digitLoop_closed (num : Nat) : ∀ fuel, num ≤ fuel → ∀ ptr : Int,
    digitLoop fuel num ptr =
      (List.range (Nat.digits 10 num).length).map
        fun (j : Nat) => ((ptr - 1 - (j : Int), 48 + (Nat.digits 10 num).getD j 0) : Int × Nat) := by
  induction num using Nat.strong_induction_on with
  | _ num ih =>
    intro fuel hfuel ptr
    by_cases h0 : num = 0
    · subst h0
      simp [digitLoop_zero]
    · have hpos : 0 < num := Nat.pos_of_ne_zero h0
      obtain ⟨f, rfl⟩ : ∃ f, fuel = f + 1 := ⟨fuel - 1, by omega⟩
      rw [digitLoop, if_neg h0]
      have hdig : Nat.digits 10 num = num % 10 :: Nat.digits 10 (num / 10) :=
        Nat.digits_def' (by norm_num) hpos
      have hlt : num / 10 < num := Nat.div_lt_self hpos (by norm_num)
      have hrec := ih (num / 10) hlt f (by omega) (ptr - 1)
      rw [hrec, hdig]
      rw [List.length_cons, List.range_succ_eq_map, List.map_cons, List.map_map]
      congr 1
      · simp
      · apply List.map_congr_left
        intro j _
        simp only [Function.comp_apply, Prod.mk.injEq, List.getD_cons_succ]
        refine ⟨?_, trivial⟩
        push_cast
        ring

theorem digits_len_le_ten (num : Nat) (h : num < 2 ^ 32) :
    (Nat.digits 10 num).length ≤ 10 := by
  by_cases h0 : num = 0
  · subst h0; simp
  · rw [Nat.digits_len 10 num (by norm_num) h0]
    have : num < 10 ^ 10 := by
      have h32 : (2 : Nat) ^ 32 = 4294967296 := by norm_num
      have h10 : (10 : Nat) ^ 10 = 10000000000 := by norm_num
      omega
    have := Nat.log_lt_of_lt_pow h0 this
    omega

theorem bufAfter_miss : ∀ (ws : List (Int × Nat)) (g : Int → Nat) (i : Int),
    (∀ w ∈ ws, w.1 ≠ i) → bufAfter ws g i = g i := by
  intro ws
  induction ws with
  | nil => intro g i _; rfl
  | cons w rest ih =>
    intro g i h
    rw [bufAfter, List.foldl_cons]
    rw [show List.foldl bufApply (bufApply g w) rest = bufAfter rest (bufApply g w) from rfl]
    rw [ih (bufApply g w) i fun x hx => h x (List.mem_cons_of_mem _ hx)]
    simp only [bufApply]
    rw [if_neg fun hh => h w (List.mem_cons_self ..) hh.symm]

theorem bufAfter_hit : ∀ (ws : List (Int × Nat)) (g : Int → Nat) (i : Int) (v : Nat),
    (i, v) ∈ ws → (∀ w ∈ ws, w.1 = i → w.2 = v) → bufAfter ws g i = v % 256 := by
  intro ws
  induction ws with
  | nil => intro g i v hmem _; cases hmem
  | cons w rest ih =>
    intro g i v hmem huniq
    rw [bufAfter, List.foldl_cons]
    rw [show List.foldl bufApply (bufApply g w) rest = bufAfter rest (bufApply g w) from rfl]
    by_cases hin : (i, v) ∈ rest
    · exact ih (bufApply g w) i v hin fun x hx => huniq x (List.mem_cons_of_mem _ hx)
    · have hw : w = (i, v) := by
        rcases List.mem_cons.mp hmem with h | h
        · exact h.symm
        · exact absurd h hin
      subst hw
      have hnone : ∀ x ∈ rest, x.1 ≠ i := by
        intro x hx hxi
        have hxv : x.2 = v := huniq x (List.mem_cons_of_mem _ hx) hxi
        have : x = (i, v) := Prod.ext hxi hxv
        exact hin (this ▸ hx)
      rw [bufAfter_miss rest _ i hnone]
      simp [bufApply]

theorem readCStr_ne_zero : ∀ (fuel : Nat) (buf : Int → Nat) (p : Int) (c : Nat),
    c ∈ readCStr buf p fuel → c ≠ 0 := by
  intro fuel
  induction fuel with
  | zero => intro buf p c hc; cases hc
  | succ fuel ih =>
    intro buf p c hc
    rw [readCStr] at hc
    by_cases h0 : buf p = 0
    · rw [if_pos h0] at hc; cases hc
    · rw [if_neg h0] at hc
      rcases List.mem_cons.mp hc with h | h
      · exact h ▸ h0
      · exact ih buf (p + 1) c h

theorem readCStr_exact (buf : Int → Nat) : ∀ (k : Nat) (p : Int) (fuel : Nat),
    k < fuel → (∀ j : Nat, j < k → buf (p + (j : Int)) ≠ 0) → buf (p + (k : Int)) = 0 →
    readCStr buf p fuel = (List.range k).map fun (j : Nat) => buf (p + (j : Int)) := by
  intro k
  induction k with
  | zero =>
    intro p fuel hfuel _ hzero
    obtain ⟨f, rfl⟩ : ∃ f, fuel = f + 1 := ⟨fuel - 1, by omega⟩
    rw [readCStr]
    simp only [Nat.cast_zero, Int.add_zero] at hzero
    rw [if_pos hzero]
    rfl
  | succ k ih =>
    intro p fuel hfuel hnz hzero
    obtain ⟨f, rfl⟩ : ∃ f, fuel = f + 1 := ⟨fuel - 1, by omega⟩
    have h0 : buf p ≠ 0 := by
      have := hnz 0 (Nat.succ_pos k)
      simpa using this
    rw [readCStr, if_neg h0]
    have hrec := ih (p + 1) f (by omega) ?_ ?_
    · rw [hrec, List.range_succ_eq_map, List.map_cons, List.map_map]
      congr 1
      · simp
      · apply List.map_congr_left
        intro j _
        simp only [Function.comp_apply]
        congr 1
        push_cast
        ring
    · intro j hj
      have := hnz (j + 1) (by omega)
      have harith : p + 1 + (j : Int) = p + ((j : Nat) + 1 : Nat) := by push_cast; ring
      rw [harith]
      exact this
    · have harith : p + 1 + (k : Int) = p + ((k + 1 : Nat) : Int) := by push_cast; ring
      rw [harith]
      exact hzero

theorem range_map_rev (l : List Nat) (f : Nat → Nat) :
    ((List.range l.length).map fun j => f (l.getD (l.length - 1 - j) 0)) = (l.map f).reverse := by
  apply List.ext_getElem
  · simp
  · intro i h1 h2
    simp only [List.length_map, List.length_range] at h1
    simp only [List.getElem_map, List.getElem_range, List.getElem_reverse, List.length_map]
    rw [List.getD_eq_getElem l 0 (by omega)]

theorem rendered_zero (g : Int → Nat) : uart_put_number_rendered g 0 = [48] := by
  rfl

theorem rendered_pos (g : Int → Nat) (num : Nat) (h0 : num ≠ 0) (h : num < 2 ^ 32) :
    uart_put_number_rendered g num = ((Nat.digits 10 num).map fun d => 48 + d).reverse := by
  have hlen10 : (Nat.digits 10 num).length ≤ 10 := digits_len_le_ten num h
  set l := Nat.digits 10 num with hl
  set len := l.length with hlen_def
  have hclosed := digitLoop_closed num num (Nat.le_refl num) 11
  have hws : uart_put_number_writes num
      = ((11 : Int), 0) :: (List.range len).map
          (fun (j : Nat) => ((11 - 1 - (j : Int), 48 + l.getD j 0) : Int × Nat)) := by
    rw [uart_put_number_writes, if_neg h0, hclosed]
  have hlength : (uart_put_number_writes num).length = len + 1 := by
    rw [hws]; simp
  have hptr : uart_put_number_finalPtr num = 11 - (len : Int) := by
    rw [uart_put_number_finalPtr, hlength]
    norm_num
  have hbuf_digit : ∀ j : Nat, j < len →
      bufAfter (uart_put_number_writes num) g (11 - (len : Int) + (j : Int))
        = 48 + l.getD (len - 1 - j) 0 := by
    intro j hj
    have hdlt : l.getD (len - 1 - j) 0 < 10 := by
      rw [List.getD_eq_getElem l 0 (by omega)]
      exact Nat.digits_lt_base (by norm_num) (List.getElem_mem _)
    have hmem : ((11 - (len : Int) + (j : Int)), 48 + l.getD (len - 1 - j) 0)
        ∈ uart_put_number_writes num := by
      rw [hws]
      refine List.mem_cons_of_mem _ ?_
      refine List.mem_map.mpr ⟨len - 1 - j, List.mem_range.mpr (by omega), ?_⟩
      simp only [Prod.mk.injEq]
      exact ⟨by omega, trivial⟩
    have huniq : ∀ w ∈ uart_put_number_writes num,
        w.1 = 11 - (len : Int) + (j : Int) → w.2 = 48 + l.getD (len - 1 - j) 0 := by
      intro w hw hwidx
      rw [hws] at hw
      rcases List.mem_cons.mp hw with hcase | hcase
      · exfalso
        rw [hcase] at hwidx
        simp only at hwidx
        omega
      · obtain ⟨j2, hj2, hweq⟩ := List.mem_map.mp hcase
        rw [List.mem_range] at hj2
        rw [← hweq] at hwidx ⊢
        simp only at hwidx ⊢
        have : j2 = len - 1 - j := by omega
        rw [this]
    rw [bufAfter_hit (uart_put_number_writes num) g _ _ hmem huniq]
    exact Nat.mod_eq_of_lt (by omega)
  have hbuf_term : bufAfter (uart_put_number_writes num) g (11 : Int) = 0 := by
    have hmem : ((11 : Int), 0) ∈ uart_put_number_writes num := by
      rw [hws]; exact List.mem_cons_self ..
    have huniq : ∀ w ∈ uart_put_number_writes num, w.1 = (11 : Int) → w.2 = 0 := by
      intro w hw hwidx
      rw [hws] at hw
      rcases List.mem_cons.mp hw with hcase | hcase
      · rw [hcase]
      · obtain ⟨j2, hj2, hweq⟩ := List.mem_map.mp hcase
        rw [← hweq] at hwidx
        simp only at hwidx
        omega
    rw [bufAfter_hit (uart_put_number_writes num) g _ _ hmem huniq]
  rw [uart_put_number_rendered, hptr]
  rw [readCStr_exact (bufAfter (uart_put_number_writes num) g) len (11 - (len : Int)) 12
    (by omega)
    (by
      intro j hj
      rw [hbuf_digit j hj]
      omega)
    (by
      have harith : 11 - (len : Int) + (len : Int) = 11 := by omega
      rw [harith]
      exact hbuf_term)]
  rw [show ((List.range len).map fun (j : Nat) =>
        bufAfter (uart_put_number_writes num) g (11 - (len : Int) + (j : Int)))
      = (List.range len).map fun (j : Nat) => 48 + l.getD (len - 1 - j) 0 from
    List.map_congr_left fun j hj => hbuf_digit j (List.mem_range.mp hj)]
  exact range_map_rev l fun d => 48 + d

theorem uart_put_number_rendered_eq (g : Int → Nat) (num : Nat) (h : num < 2 ^ 32) :
    uart_put_number_rendered g num = spec_decimalAscii num := by
  by_cases h0 : num = 0
  · subst h0
    rw [spec_decimalAscii, if_pos rfl]
    exact rendered_zero g
  · rw [spec_decimalAscii, if_neg h0]
    exact rendered_pos g num h0 h

theorem spec_decimalAscii_ge_48 (num : Nat) : ∀ c ∈ spec_decimalAscii num, 48 ≤ c := by
  intro c hc
  rw [spec_decimalAscii] at hc
  by_cases h0 : num = 0
  · rw [if_pos h0] at hc
    rcases List.mem_singleton.mp hc with rfl
    exact Nat.le_refl 48
  · rw [if_neg h0] at hc
    rw [List.mem_reverse] at hc
    obtain ⟨d, _, hdc⟩ := List.mem_map.mp hc
    omega

theorem spec_lf2crlf_id {s : List Nat} (h : ∀ c ∈ s, c ≠ 10) : spec_lf2crlf s = s := by
  induction s with
  | nil => rfl
  | cons c rest ih =>
    rw [spec_lf2crlf, if_neg (h c (List.mem_cons_self ..))]
    rw [ih fun x hx => h x (List.mem_cons_of_mem _ hx)]

theorem findReady_some_spec (lsr : Nat → Nat) :
    ∀ fuel start i, findReady lsr start fuel = some i →
      start ≤ i ∧ lsr i &&& UART_LSR_THRE ≠ 0 := by
  intro fuel
  induction fuel with
  | zero => intro start i h; simp [findReady] at h
  | succ fuel ih =>
    intro start i h
    rw [findReady] at h
    by_cases hc : lsr start &&& UART_LSR_THRE ≠ 0
    · rw [if_pos hc] at h
      cases h
      exact ⟨Nat.le_refl _, hc⟩
    · rw [if_neg hc] at h
      obtain ⟨h1, h2⟩ := ih (start + 1) i h
      exact ⟨Nat.le_trans (Nat.le_succ _) h1, h2⟩

theorem nsWellPolledGo_pollTrace_true (lsr : Nat → Nat) (base : Nat) :
    ∀ n start l, nsWellPolledGo base (nsPollTrace lsr base start n ++ l) true
      = nsWellPolledGo base l true := by
  intro n
  induction n with
  | zero => intro start l; rfl
  | succ n ih =>
    intro start l
    rw [nsPollTrace, List.cons_append, nsWellPolledGo, Bool.true_or]
    exact ih (start + 1) l

theorem nsWellPolledGo_pollTrace_ready (lsr : Nat → Nat) (base : Nat) :
    ∀ n start l seen, (∃ j, j < n ∧ lsr (start + j) &&& UART_LSR_THRE ≠ 0) →
      nsWellPolledGo base (nsPollTrace lsr base start n ++ l) seen
        = nsWellPolledGo base l true := by
  intro n
  induction n with
  | zero =>
    intro start l seen h
    obtain ⟨j, hj, _⟩ := h
    exact absurd hj (Nat.not_lt_zero j)
  | succ n ih =>
    intro start l seen h
    rw [nsPollTrace, List.cons_append, nsWellPolledGo]
    by_cases hc : lsr start &&& UART_LSR_THRE ≠ 0
    · have hb : (seen || (decide (base = base) && decide (lsr start &&& UART_LSR_THRE ≠ 0)))
          = true := by simp [hc]
      rw [hb]
      exact nsWellPolledGo_pollTrace_true lsr base n (start + 1) l
    · obtain ⟨j, hj, hready⟩ := h
      have hj0 : j ≠ 0 := by
        intro h0
        subst h0
        simp only [Nat.add_zero] at hready
        exact hc hready
      refine ih (start + 1) l _ ⟨j - 1, by omega, ?_⟩
      have heq : start + 1 + (j - 1) = start + j := by omega
      rw [heq]
      exact hready

theorem ns_uart_putc_seg (lsr : Nat → Nat) (fuel base c : Nat) (st st' : NSState)
    (h : ns_uart_putc lsr fuel base c st = some st') :
    ∃ d, st'.trace = st.trace ++ d ∧ nsTxBytes base d = [c % 256] ∧
      ∀ l seen, nsWellPolledGo base (d ++ l) seen = nsWellPolledGo base l false := by
  obtain ⟨i, hfc, hst⟩ := ns_uart_putc_some lsr fuel base c st st' h
  obtain ⟨hle, hready⟩ := findReady_some_spec lsr fuel st.poll i hfc
  refine ⟨nsPollTrace lsr base st.poll (i + 1 - st.poll)
      ++ [NSEvent.writeByte (base + UART_THR) (c % 256)], ?_, ?_, ?_⟩
  · rw [hst]; simp
  · rw [nsTxBytes_append, nsTxBytes_pollTrace]
    simp [nsTxBytes]
  · intro l seen
    rw [List.append_assoc, nsWellPolledGo_pollTrace_ready lsr base _ _ _ _
      ⟨i - st.poll, by omega, by rw [Nat.add_sub_cancel' hle]; exact hready⟩]
    simp [nsWellPolledGo]

theorem map_mod256_id : ∀ bytes : List Nat, (∀ c ∈ bytes, c < 256) →
    bytes.map (fun c => c % 256) = bytes := by
  intro bytes
  induction bytes with
  | nil => intro _; rfl
  | cons c rest ih =>
    intro h
    rw [List.map_cons, Nat.mod_eq_of_lt (h c (List.mem_cons_self ..)),
      ih fun x hx => h x (List.mem_cons_of_mem _ hx)]

theorem ns_putcSeq_delta (lsr : Nat → Nat) (fuel base : Nat) :
    ∀ bytes st st', ns_putcSeq lsr fuel base bytes st = some st' →
      ∃ d, st'.trace = st.trace ++ d ∧
        nsTxBytes base d = bytes.map (fun c => c % 256) ∧
        nsWellPolledGo base d false = true := by
  intro bytes
  induction bytes with
  | nil =>
    intro st st' h
    cases h
    exact ⟨[], by simp, rfl, rfl⟩
  | cons c rest ih =>
    intro st st' h
    rw [ns_putcSeq] at h
    cases h1 : ns_uart_putc lsr fuel base c st with
    | none => simp [h1] at h
    | some st1 =>
      simp only [h1] at h
      obtain ⟨d1, hd1, htx1, hreset⟩ := ns_uart_putc_seg lsr fuel base c st st1 h1
      obtain ⟨d3, hd3, htx3, hwp3⟩ := ih st1 st' h
      refine ⟨d1 ++ d3, ?_, ?_, ?_⟩
      · rw [hd3, hd1]; simp
      · rw [nsTxBytes_append, htx1, htx3, List.map_cons]
        rfl
      · rw [← hwp3]
        have := hreset d3 false
        simpa using this

theorem uart_putchar_isSome (fr : Nat → Nat) (fuel c : Nat) (st : TxState) :
    (uart_putchar fr fuel c st).isSome = (findClear fr st.poll fuel).isSome := by
  rw [uart_putchar]
  cases findClear fr st.poll fuel with
  | none => rfl
  | some i => rfl

/-! ## Claim theorems -/

/-- C1: for every input byte sequence, `uart_puts` transmits exactly the
sequence with every line-feed byte 0x0A replaced by 0x0D 0x0A, no other
byte altered, added or dropped, in order — in both driver variants. -/
theorem claim_C1_transmit_string :
    (∀ (fr : Nat → Nat) (fuel : Nat) (s : List Nat) (st st' : TxState),
        (∀ c ∈ s, c ≠ 0) → uart_puts fr fuel s st = some st' →
        txBytes st'.trace = txBytes st.trace ++ spec_lf2crlf s)
    ∧ (∀ (lsr : Nat → Nat) (fuel base : Nat) (s : List Nat) (st st' : NSState),
        (∀ c ∈ s, c ≠ 0) → (∀ c ∈ s, c < 256) →
        ns_uart_puts lsr fuel base s st = some st' →
        nsTxBytes base st'.trace = nsTxBytes base st.trace ++ spec_lf2crlf s) := by
  constructor
  · intro fr fuel s st st' hnz h
    obtain ⟨d, hd, htx, _, _⟩ := uart_puts_delta fr fuel s st st' h hnz
    rw [hd, txBytes_append, htx]
  · intro lsr fuel base s st st' hnz hlt h
    exact (ns_uart_puts_delta lsr fuel base s st st' h hnz hlt).1

/-- Witness for C1 at the concrete input "A\nB". -/
theorem claim_C1_transmit_string_witness :
    txBytes ((uart_puts alwaysReadyFR 1 [65, 10, 66] (initTx r0)).getD (initTx r0)).trace
      = txBytes (initTx r0).trace ++ spec_lf2crlf [65, 10, 66] :=
  claim_C1_transmit_string.1 alwaysReadyFR 1 [65, 10, 66] (initTx r0)
    ((uart_puts alwaysReadyFR 1 [65, 10, 66] (initTx r0)).getD (initTx r0))
    (by decide) (by rfl)

/-- C2: for every unsigned 32-bit integer, `uart_put_number` renders the
standard base-10 ASCII digit string (most-significant first, no leading
zeros, "0" for zero) and transmits exactly those bytes. -/
theorem claim_C2_transmit_decimal (num : Nat) (h : num < 2 ^ 32) (g : Int → Nat) :
    uart_put_number_rendered g num = spec_decimalAscii num
    ∧ ∀ (fr : Nat → Nat) (fuel : Nat) (st st' : TxState),
        uart_put_number fr fuel g num st = some st' →
        txBytes st'.trace = txBytes st.trace ++ spec_decimalAscii num := by
  refine ⟨uart_put_number_rendered_eq g num h, ?_⟩
  intro fr fuel st st' hput
  rw [uart_put_number] at hput
  have hnz : ∀ c ∈ uart_put_number_rendered g num, c ≠ 0 :=
    fun c hc => readCStr_ne_zero 12 _ _ c hc
  obtain ⟨d, hd, htx, _, _⟩ := uart_puts_delta fr fuel _ st st' hput hnz
  rw [hd, txBytes_append, htx, uart_put_number_rendered_eq g num h]
  congr 1
  apply spec_lf2crlf_id
  intro c hc
  have := spec_decimalAscii_ge_48 num c hc
  omega

/-- Witness for C2 at the concrete value 42 over a garbage buffer. -/
theorem claim_C2_transmit_decimal_witness :
    uart_put_number_rendered (fun _ => 7) 42 = spec_decimalAscii 42
    ∧ ∀ (fr : Nat → Nat) (fuel : Nat) (st st' : TxState),
        uart_put_number fr fuel (fun _ => 7) 42 st = some st' →
        txBytes st'.trace = txBytes st.trace ++ spec_decimalAscii 42 :=
  claim_C2_transmit_decimal 42 (by decide) (fun _ => 7)

/-- C3: `uart_init` performs exactly, in order: control := 0 (disable),
integer then fractional baud divisor, line control (8 data bits, no
parity, 1 stop bit, FIFO enabled), interrupt mask := 0, control :=
enable+tx+rx, then the settling delay — and touches no other register. -/
theorem claim_C3_init_sequence :
    ∀ r : PL011Regs,
      (uart_init_run r).2 =
        [Event.writeReg CR_off 0,
         Event.writeReg IBRD_off 13,
         Event.writeReg FBRD_off 1,
         Event.writeReg LCRH_off (UART_LCRH_WLEN8 ||| UART_LCRH_FEN),
         Event.writeReg IMSC_off 0,
         Event.writeReg CR_off (UART_CR_UARTEN ||| UART_CR_TXE ||| UART_CR_RXE),
         Event.delayEv 1000]
      ∧ ∀ e ∈ (uart_init_run r).2, initEventOK e = true := by
  intro r
  have htr : (uart_init_run r).2 =
      [Event.writeReg CR_off 0,
       Event.writeReg IBRD_off 13,
       Event.writeReg FBRD_off 1,
       Event.writeReg LCRH_off (UART_LCRH_WLEN8 ||| UART_LCRH_FEN),
       Event.writeReg IMSC_off 0,
       Event.writeReg CR_off (UART_CR_UARTEN ||| UART_CR_TXE ||| UART_CR_RXE),
       Event.delayEv 1000] := rfl
  refine ⟨htr, ?_⟩
  rw [htr]
  decide

/-- Witness for C3: the first write of the concrete run over the zero
register file touches an allowed register. -/
theorem claim_C3_init_sequence_witness :
    initEventOK (Event.writeReg CR_off 0) = true :=
  (claim_C3_init_sequence r0).2 (Event.writeReg CR_off 0) (by decide)

/-- C4: for every sequence of transmit-byte calls on one instance, the
bytes are written to that instance's data (respectively transmit-holding)
register in exactly the call order, and every such write happens only
after the FIFO-full (respectively not-ready) condition read false at
least once since the previous write — in both driver variants. -/
theorem claim_C4_ordering :
    (∀ (fr : Nat → Nat) (fuel : Nat) (bytes : List Nat) (st st' : TxState),
        putcharSeq fr fuel bytes st = some st' → st.trace = [] →
        txBytes st'.trace = bytes ∧ wellPolled st'.trace = true)
    ∧ (∀ (lsr : Nat → Nat) (fuel base : Nat) (bytes : List Nat) (st st' : NSState),
        (∀ c ∈ bytes, c < 256) →
        ns_putcSeq lsr fuel base bytes st = some st' → st.trace = [] →
        nsTxBytes base st'.trace = bytes ∧ nsWellPolled base st'.trace = true) := by
  constructor
  · intro fr fuel bytes st st' h h0
    obtain ⟨d, hd, htx, hwp, _⟩ := putcharSeq_delta fr fuel bytes st st' h
    rw [hd, h0]
    simp only [List.nil_append]
    exact ⟨htx, hwp⟩
  · intro lsr fuel base bytes st st' hlt h h0
    obtain ⟨d, hd, htx, hwp⟩ := ns_putcSeq_delta lsr fuel base bytes st st' h
    rw [hd, h0]
    simp only [List.nil_append]
    rw [map_mod256_id bytes hlt] at htx
    exact ⟨htx, hwp⟩

/-- Witness for C4 at the concrete byte sequence "Hi", on both variants. -/
theorem claim_C4_ordering_witness :
    (txBytes ((putcharSeq alwaysReadyFR 1 [72, 105] (initTx r0)).getD (initTx r0)).trace = [72, 105]
      ∧ wellPolled ((putcharSeq alwaysReadyFR 1 [72, 105] (initTx r0)).getD (initTx r0)).trace
          = true)
    ∧ (nsTxBytes UART0_BASE
          ((ns_putcSeq alwaysReadyLSR 1 UART0_BASE [72, 105] ns0).getD ns0).trace = [72, 105]
      ∧ nsWellPolled UART0_BASE
          ((ns_putcSeq alwaysReadyLSR 1 UART0_BASE [72, 105] ns0).getD ns0).trace = true) :=
  ⟨claim_C4_ordering.1 alwaysReadyFR 1 [72, 105] (initTx r0)
      ((putcharSeq alwaysReadyFR 1 [72, 105] (initTx r0)).getD (initTx r0)) (by rfl) rfl,
   claim_C4_ordering.2 alwaysReadyLSR 1 UART0_BASE [72, 105] ns0
      ((ns_putcSeq alwaysReadyLSR 1 UART0_BASE [72, 105] ns0).getD ns0)
      (by decide) (by rfl) rfl⟩

/-- C5: running `uart_init` twice leaves exactly the register contents of
running it once — every write stores an absolute value, as the explicit
final register file shows (only the untouched data register keeps its
prior contents). -/
theorem claim_C5_init_idempotent :
    ∀ r : PL011Regs,
      uart_init (uart_init r) = uart_init r
      ∧ uart_init r = { dr := r.dr, ibrd := 13, fbrd := 1, lcrh := 112, cr := 769, imsc := 0 } := by
  intro r
  have hone : uart_init r = { dr := r.dr, ibrd := 13, fbrd := 1, lcrh := 112, cr := 769, imsc := 0 } := by
    simp [uart_init, uart_init_run, volWrite, volDelay, regWrite, DR_off, IBRD_off,
      FBRD_off, LCRH_off, CR_off, IMSC_off, UART_CR_UARTEN, UART_CR_TXE, UART_CR_RXE,
      UART_LCRH_WLEN8, UART_LCRH_FEN]
  refine ⟨?_, hone⟩
  rw [hone]
  simp [uart_init, uart_init_run, volWrite, volDelay, regWrite, DR_off, IBRD_off,
    FBRD_off, LCRH_off, CR_off, IMSC_off, UART_CR_UARTEN, UART_CR_TXE, UART_CR_RXE,
    UART_LCRH_WLEN8, UART_LCRH_FEN]

/-- C6: a transmit operation on one NS16550 instance neither reads nor
writes any register of the other instance: after any `uart_putc` or
`uart_puts` on base `a`, every register of base `b` holds its prior
value. -/
theorem claim_C6_independence (lsr : Nat → Nat) (fuel : Nat) (a b : Nat)
    (hab : (a = UART0_BASE ∧ b = UART1_BASE) ∨ (a = UART1_BASE ∧ b = UART0_BASE))
    (off : Nat) (hoff : off = UART_THR ∨ off = UART_LSR) :
    (∀ (c : Nat) (st st' : NSState), ns_uart_putc lsr fuel a c st = some st' →
        st'.mem (b + off) = st.mem (b + off))
    ∧ (∀ (s : List Nat) (st st' : NSState), (∀ c ∈ s, c ≠ 0) → (∀ c ∈ s, c < 256) →
        ns_uart_puts lsr fuel a s st = some st' →
        st'.mem (b + off) = st.mem (b + off)) := by
  have hne : b + off ≠ a + UART_THR := by
    rcases hab with ⟨ha, hb⟩ | ⟨ha, hb⟩ <;> subst ha <;> subst hb <;>
      rcases hoff with h | h <;> subst h <;> decide
  constructor
  · intro c st st' h
    obtain ⟨_, hm⟩ := ns_uart_putc_delta lsr fuel a c st st' h
    rw [hm]
    simp [memWrite, hne]
  · intro s st st' hnz hlt h
    exact (ns_uart_puts_delta lsr fuel a s st st' h hnz hlt).2 (b + off) hne

/-- Witness for C6: a concrete transmit on UART0 leaves UART1's transmit
holding register byte untouched. -/
theorem claim_C6_independence_witness :
    ((ns_uart_puts alwaysReadyLSR 1 UART0_BASE [77] ns0).getD ns0).mem (UART1_BASE + UART_THR)
      = ns0.mem (UART1_BASE + UART_THR) :=
  (claim_C6_independence alwaysReadyLSR 1 UART0_BASE UART1_BASE (Or.inl ⟨rfl, rfl⟩)
      UART_THR (Or.inl rfl)).2
    [77] ns0 ((ns_uart_puts alwaysReadyLSR 1 UART0_BASE [77] ns0).getD ns0)
    (by decide) (by decide) (by rfl)

/-- C7: `uart_putchar` terminates — with exactly one data-register write —
exactly when some flag-register poll at or after the current one shows the
FIFO-full bit clear; if every poll shows it set, the call returns `none`
for every fuel (it never writes the data register, has no timeout and no
error path). -/
theorem claim_C7_termination (fr : Nat → Nat) (c : Nat) (st : TxState) :
    ((∃ fuel, (uart_putchar fr fuel c st).isSome = true) ↔
      (∃ i, st.poll ≤ i ∧ fr i &&& UART_FR_TXFF = 0))
    ∧ ((∀ i, st.poll ≤ i → fr i &&& UART_FR_TXFF ≠ 0) →
        ∀ fuel, uart_putchar fr fuel c st = none)
    ∧ (∀ fuel st', uart_putchar fr fuel c st = some st' →
        ∃ d, st'.trace = st.trace ++ d ∧ d.countP isDRWrite = 1 ∧ txBytes d = [c]) := by
  refine ⟨⟨?_, ?_⟩, ?_, ?_⟩
  · rintro ⟨fuel, hsome⟩
    rw [uart_putchar_isSome] at hsome
    obtain ⟨i, hi⟩ := Option.isSome_iff_exists.mp hsome
    obtain ⟨hle, hclear, _⟩ := findClear_some_spec fr fuel st.poll i hi
    exact ⟨i, hle, hclear⟩
  · rintro ⟨i, hle, hclear⟩
    refine ⟨i - st.poll + 1, ?_⟩
    rw [uart_putchar_isSome]
    have harith : st.poll + (i - st.poll) = i := by omega
    exact findClear_isSome_of_clear fr (i - st.poll) st.poll (by rw [harith]; exact hclear)
  · intro hnever fuel
    rw [uart_putchar, findClear_none_of_never fr st.poll hnever fuel st.poll (Nat.le_refl _)]
  · intro fuel st' h
    obtain ⟨d, hd, htx, _, hcount, _, _, _⟩ := uart_putchar_delta fr fuel c st st' h
    exact ⟨d, hd, hcount, htx⟩

/-- Witness for C7: with an always-ready flag register, a concrete call
terminates. -/
theorem claim_C7_termination_witness :
    ∃ fuel, (uart_putchar alwaysReadyFR fuel 65 (initTx r0)).isSome = true :=
  (claim_C7_termination alwaysReadyFR 65 (initTx r0)).1.mpr ⟨0, Nat.le_refl 0, rfl⟩

/-- C8: with the source's 115200-baud / 24 MHz configuration, `uart_init`
programs the integer divisor 13 and fractional divisor 1, matching the
truncated divisor formula clock / (16 × baud), and a subsequent
`uart_puts "Hi\n"` transmits exactly H, i, 0x0D, 0x0A in order. -/
theorem claim_C8_end_to_end :
    (∀ r : PL011Regs,
        (uart_init r).ibrd = 24000000 / (16 * 115200)
        ∧ (uart_init r).ibrd = 13
        ∧ (uart_init r).fbrd = 64 * 24000000 / (16 * 115200) % 64
        ∧ (uart_init r).fbrd = 1)
    ∧ ∃ st', uart_puts alwaysReadyFR 1 [72, 105, 10] (initTx (uart_init r0)) = some st'
        ∧ txBytes st'.trace = [72, 105, 13, 10] := by
  constructor
  · intro r
    exact ⟨rfl, rfl, rfl, rfl⟩
  · exact ⟨(uart_puts alwaysReadyFR 1 [72, 105, 10] (initTx (uart_init r0))).getD
      (initTx r0), rfl, rfl⟩

/-- C9: for every 32-bit value, every scratch-buffer store of
`uart_put_number` (terminator and back-to-front digits) lands inside the
12-byte buffer, and the decremented pointer never moves before the
buffer's start. -/
theorem claim_C9_buffer_bounds (num : Nat) (h : num < 2 ^ 32) :
    (∀ w ∈ uart_put_number_writes num, 0 ≤ w.1 ∧ w.1 < 12)
    ∧ 0 ≤ uart_put_number_finalPtr num := by
  by_cases h0 : num = 0
  · subst h0
    exact ⟨by decide, by decide⟩
  · have hlen10 : (Nat.digits 10 num).length ≤ 10 := digits_len_le_ten num h
    have hclosed := digitLoop_closed num num (Nat.le_refl num) 11
    have hws : uart_put_number_writes num
        = ((11 : Int), 0) :: (List.range (Nat.digits 10 num).length).map
            (fun (j : Nat) =>
              ((11 - 1 - (j : Int), 48 + (Nat.digits 10 num).getD j 0) : Int × Nat)) := by
      rw [uart_put_number_writes, if_neg h0, hclosed]
    constructor
    · intro w hw
      rw [hws] at hw
      rcases List.mem_cons.mp hw with hcase | hcase
      · rw [hcase]
        constructor <;> decide
      · obtain ⟨j, hj, hweq⟩ := List.mem_map.mp hcase
        rw [List.mem_range] at hj
        rw [← hweq]
        constructor <;> simp only <;> omega
    · rw [uart_put_number_finalPtr, hws]
      simp only [List.length_cons, List.length_map, List.length_range]
      omega

/-- Witness for C9 at the concrete value 42. -/
theorem claim_C9_buffer_bounds_witness :
    (∀ w ∈ uart_put_number_writes 42, 0 ≤ w.1 ∧ w.1 < 12)
    ∧ 0 ≤ uart_put_number_finalPtr 42 :=
  claim_C9_buffer_bounds 42 (by decide)

/-- C10: every transmit operation writes only the data register and reads
only the flag register, so the configuration registers (baud divisors,
line control, control, interrupt mask) survive every `uart_putchar`,
`uart_puts` and `uart_put_number` unchanged. -/
theorem claim_C10_frame (fr : Nat → Nat) (fuel : Nat) :
    (∀ (c : Nat) (st st' : TxState), uart_putchar fr fuel c st = some st' →
        configEq st'.regs st.regs
        ∧ ∃ d, st'.trace = st.trace ++ d ∧ ∀ e ∈ d, isTransmitEvent e = true)
    ∧ (∀ (s : List Nat) (st st' : TxState), (∀ c ∈ s, c ≠ 0) →
        uart_puts fr fuel s st = some st' →
        configEq st'.regs st.regs
        ∧ ∃ d, st'.trace = st.trace ++ d ∧ ∀ e ∈ d, isTransmitEvent e = true)
    ∧ (∀ (g : Int → Nat) (num : Nat) (st st' : TxState),
        uart_put_number fr fuel g num st = some st' →
        configEq st'.regs st.regs
        ∧ ∃ d, st'.trace = st.trace ++ d ∧ ∀ e ∈ d, isTransmitEvent e = true) := by
  refine ⟨?_, ?_, ?_⟩
  · intro c st st' h
    obtain ⟨d, hd, _, hev, _, _, hcfg, _⟩ := uart_putchar_delta fr fuel c st st' h
    exact ⟨hcfg, d, hd, hev⟩
  · intro s st st' hnz h
    obtain ⟨d, hd, _, hev, hcfg⟩ := uart_puts_delta fr fuel s st st' h hnz
    exact ⟨hcfg, d, hd, hev⟩
  · intro g num st st' h
    rw [uart_put_number] at h
    have hnz : ∀ c ∈ uart_put_number_rendered g num, c ≠ 0 :=
      fun c hc => readCStr_ne_zero 12 _ _ c hc
    obtain ⟨d, hd, _, hev, hcfg⟩ := uart_puts_delta fr fuel _ st st' h hnz
    exact ⟨hcfg, d, hd, hev⟩

/-- Witness for C10 at a concrete single-byte transmit. -/
theorem claim_C10_frame_witness :
    configEq ((uart_putchar alwaysReadyFR 1 65 (initTx r0)).getD (initTx r0)).regs
        (initTx r0).regs
    ∧ ∃ d, ((uart_putchar alwaysReadyFR 1 65 (initTx r0)).getD (initTx r0)).trace
          = (initTx r0).trace ++ d
        ∧ ∀ e ∈ d, isTransmitEvent e = true :=
  (claim_C10_frame alwaysReadyFR 1).1 65 (initTx r0)
    ((uart_putchar alwaysReadyFR 1 65 (initTx r0)).getD (initTx r0)) (by rfl)

end Uart
